import Mathlib

/-!
Verification of the `DiophantineSystem` solver (Maude's linear Diophantine
equation solver, as factored out in this repository).  The C++ source in
`diophantineSystem.cc` is shallowly embedded below: every stateful member
function becomes a Lean function from states to states, machine `int`
arithmetic is modelled by `Int` (overflow is out of scope for the solver,
which assumes values fitting in 32 bits), and the unbounded driver loops are
modelled with explicit fuel, `none` standing for a run that was cut off (or
that hit undefined behaviour such as the `Assert(j < bagLength)` overrun).
-/

set_option linter.unusedVariables false

/-- Sentinel for an unspecified upper bound on a row sum.
Modelled from the spec: the header declaring this constant is not among the
sources; the spec (§3, §6) describes it as a distinguished sentinel value,
replaced by `columnSum` during precomputation.  All integers are 32-bit, so
the sentinel is the largest 32-bit signed value. -/
def UNBOUNDED : Int := 2147483647

/-- Sentinel marking an entry of a solubility table as infeasible.
Modelled from the spec: the header declaring this constant is not among the
sources; `precompute` tests insolubility with `min < 0`, so the sentinel is
the negative value `-1`. -/
def INSOLUBLE : Int := -1

/-- Modelled from the spec: integer ceiling division `⌈a / b⌉` (used with
`b = coeff > 0`); the helper lives in a missing header, the spec (§4.5)
specifies it as the mathematical ceiling. -/
def ceilingDivision (a b : Int) : Int := -((-a) / b)

/-- Modelled from the spec: integer floor division `⌊a / b⌋` (used with
`b = coeff > 0`); the helper lives in a missing header, the spec (§4.5)
specifies it as the mathematical floor.  Lean's `Int` division already
rounds toward `-∞` for positive divisors. -/
def floorDivision (a b : Int) : Int := a / b

/-- Per-row, per-column selection state (`DiophantineSystem::Select`). -/
structure Select where
  base : Int
  extra : Int
  maxExtra : Int
deriving Repr, DecidableEq, Inhabited

/-- Per-row, per-magnitude solubility entry (`DiophantineSystem::Soluble`). -/
structure Soluble where
  min : Int
  max : Int
deriving Repr, DecidableEq, Inhabited

/-- A row of the system (`DiophantineSystem::Row`). -/
structure Row where
  name : Nat
  coeff : Int
  minSize : Int
  maxSize : Int
  minProduct : Int := 0
  maxProduct : Int := 0
  minLeave : Int := 0
  maxLeave : Int := 0
  currentSize : Int := 0
  currentMaxSize : Int := 0
  selection : List Select := []
  soluble : List Soluble := []
deriving Repr, DecidableEq, Inhabited

/-- The solver state (`class DiophantineSystem`). -/
structure DiophantineSystem where
  rows : List Row
  columns : List Int
  rowPermute : List Nat
  columnSum : Int
  maxColumnValue : Int
  closed : Bool
  complex : Bool
  failed : Bool
deriving Repr, DecidableEq, Inhabited

/-- The freshly constructed solver (the constructor only reserves space). -/
def DiophantineSystem.empty : DiophantineSystem :=
  { rows := [], columns := [], rowPermute := [], columnSum := 0,
    maxColumnValue := 0, closed := false, complex := false, failed := false }

/-- `DiophantineSystem::insertRow`. -/
def DiophantineSystem.insertRow (s : DiophantineSystem)
    (coeff minSize maxSize : Int) : DiophantineSystem :=
  { s with rows := s.rows ++
      [{ name := s.rows.length, coeff := coeff, minSize := minSize,
         maxSize := maxSize }] }

/-- `DiophantineSystem::insertColumn`. -/
def DiophantineSystem.insertColumn (s : DiophantineSystem)
    (value : Int) : DiophantineSystem :=
  { s with columns := s.columns ++ [value],
           columnSum := s.columnSum + value,
           maxColumnValue :=
             if value > s.maxColumnValue then value else s.maxColumnValue }

/-- `DiophantineSystem::rowLt`: descending coefficients, ties split by
ascending maximum allowed sums. -/
def rowLt (i j : Row) : Bool :=
  if i.coeff - j.coeff ≠ 0 then decide (i.coeff - j.coeff < 0)
  else decide (i.maxSize - j.maxSize < 0)

/-- Insert `r` into a list already sorted for `rowLt` (strictly-smaller
elements first), keeping it sorted.  Together with `sortRows` this models
the `sort(rows.begin(), rows.end(), rowLt)` call; `std::sort` promises a
permutation that is sorted for the comparator and nothing more, which the
insertion sort below delivers deterministically. -/
def insertSorted (r : Row) : List Row → List Row
  | [] => [r]
  | x :: xs => if rowLt x r then x :: insertSorted r xs else r :: x :: xs

/-- Sorting of the row vector at the start of `precompute`. -/
def sortRows : List Row → List Row
  | [] => []
  | r :: rs => insertSorted r (sortRows rs)

/-- The loop in `precompute` that walks rows from last to first accumulating
`minLeave` / `maxLeave` and resizing each row's selection vector (all fields
zeroed).  Returns the updated rows and the final accumulator values. -/
def setLeaves (nrColumns : Nat) : List Row → List Row × Int × Int
  | [] => ([], 0, 0)
  | r :: rest =>
    let res := setLeaves nrColumns rest
    let minT := res.2.1
    let maxT := res.2.2
    let r' := { r with
                minLeave := minT
                maxLeave := maxT
                selection := List.replicate nrColumns (⟨0, 0, 0⟩ : Select) }
    (r' :: res.1, minT + r.minProduct, maxT + r.maxProduct)

/-- The loop in `precompute` setting `rowPermute[r.name] = i` for the row at
sorted position `i`; since the names are exactly `0..n-1`, this is the map
sending each name to the sorted position of the row carrying it. -/
def computeRowPermute (sorted : List Row) : List Nat :=
  (List.range sorted.length).map fun k => sorted.findIdx fun r => r.name == k

/-- Table lookup `tab[v]` for a solubility vector.  The C++ code only ever
indexes with `0 ≤ v ≤ maxColumnValue` in reachable states (anything else is
undefined behaviour); out-of-range lookups answer `INSOLUBLE` here. -/
def solAt (tab : List Soluble) (v : Int) : Soluble :=
  if 0 ≤ v then tab.getD v.toNat { min := INSOLUBLE, max := INSOLUBLE }
  else { min := INSOLUBLE, max := INSOLUBLE }

/-- Solubility vector of the last sorted row (`buildSolubilityVectors`, first
block): starting from `count = 0` at magnitude `0`, the loop writes `count`
at every multiple `count·coeff ≤ maxColumnValue` while `count ≤ maxSize`, and
every other entry keeps its `INSOLUBLE` initialisation.  Since `coeff > 0`
and `maxSize ≥ 0` the written entries are exactly the multiples of `coeff`
whose quotient is at most `maxSize`. -/
def baseTable (coeff maxSize : Int) (maxCV : Nat) : List Soluble :=
  (List.range (maxCV + 1)).map fun v : Nat =>
    if (v : Int) % coeff = 0 ∧ (v : Int) / coeff ≤ maxSize then
      { min := (v : Int) / coeff, max := (v : Int) / coeff }
    else { min := INSOLUBLE, max := INSOLUBLE }

/-- The `newMax` scan in `buildSolubilityVectors`: starting from the
candidate count `maxSize`, decrement while `prev[v - count·coeff]` is
insoluble, i.e. return the largest count `≤ maxSize` whose remainder the
suffix can absorb.  The C++ loop has no floor; in reachable states it stops
at a positive count (`Assert(newMax >= next[t].min + 1)`), so the `0`
fallback below is never taken there. -/
def scanNewMax (prev : List Soluble) (v coeff : Int) : Nat → Int
  | 0 => 0
  | n + 1 =>
    if (solAt prev (v - (n + 1 : Nat) * coeff)).min ≠ INSOLUBLE then (n + 1 : Nat)
    else scanNewMax prev v coeff n

/-- One entry of the solubility recurrence (`buildSolubilityVectors`, inner
loop body) at magnitude `v`, given the finished table `prev` of the next row
and the already-built prefix `acc` of this row's table (entries `0..v-1`). -/
def nextEntry (prev acc : List Soluble) (coeff maxSize : Int) (v : Int) : Soluble :=
  let t := v - coeff
  if 0 ≤ t ∧ (solAt acc t).min ≠ INSOLUBLE ∧ (solAt acc t).min < maxSize then
    { min := if (solAt prev v).min = INSOLUBLE then (solAt acc t).min + 1 else 0,
      max := if (solAt acc t).max < maxSize then (solAt acc t).max + 1
             else scanNewMax prev v coeff maxSize.toNat }
  else
    if (solAt prev v).min = INSOLUBLE then { min := INSOLUBLE, max := INSOLUBLE }
    else { min := 0, max := 0 }

/-- The solubility table of a non-last row, built left to right for
magnitudes `0..len-1` (the code writes `next[v]` reading only `prev` and
already-written entries `next[t]`, `t = v - coeff < v`). -/
def buildNextRow (prev : List Soluble) (coeff maxSize : Int) : Nat → List Soluble
  | 0 => []
  | v + 1 =>
    let acc := buildNextRow prev coeff maxSize v
    acc ++ [nextEntry prev acc coeff maxSize (v : Int)]

/-- `DiophantineSystem::buildSolubilityVectors`, expressed on the sorted row
list: the last row gets the base table, and each earlier row's table is
computed from its successor's. -/
def buildTables (maxCV : Nat) : List Row → List Row
  | [] => []
  | [r] => [{ r with soluble := baseTable r.coeff r.maxSize maxCV }]
  | r :: r2 :: rest =>
    match buildTables maxCV (r2 :: rest) with
    | [] => []
    | r2' :: rest' =>
      { r with soluble := buildNextRow r2'.soluble r.coeff r.maxSize (maxCV + 1) }
        :: r2' :: rest'

/-- The first loop of `precompute` on one row: substitute `columnSum` for an
`UNBOUNDED` upper bound and fill in `minProduct` / `maxProduct`. -/
def substRow (columnSum : Int) (r : Row) : Row :=
  let m := if r.maxSize = UNBOUNDED then columnSum else r.maxSize
  { r with maxSize := m, minProduct := r.minSize * r.coeff,
           maxProduct := m * r.coeff }

/-- The rows after the first loop of `precompute`. -/
def precomputedRows (s : DiophantineSystem) : List Row :=
  s.rows.map (substRow s.columnSum)

/-- The rows after sorting and the leave/selection loop of `precompute`. -/
def preparedRows (s : DiophantineSystem) : List Row :=
  (setLeaves s.columns.length (sortRows (precomputedRows s))).1

/-- The complex-case test of `precompute`:
`rows[nrRows - 1].coeff > 1 || rows[nrRows - 1].maxSize < maxColumnValue`. -/
def complexCond (rows : List Row) (maxCV : Int) : Prop :=
  (rows.getD (rows.length - 1) default).coeff > 1 ∨
    (rows.getD (rows.length - 1) default).maxSize < maxCV

instance (rows : List Row) (maxCV : Int) : Decidable (complexCond rows maxCV) := by
  unfold complexCond; infer_instance

/-- `DiophantineSystem::precompute`.  Returns the C++ return value paired
with the updated state. -/
def DiophantineSystem.precompute (s : DiophantineSystem) :
    Bool × DiophantineSystem :=
  let s0 := { s with closed := true }
  let rows1 := precomputedRows s
  let sumOfMinProducts := (rows1.map Row.minProduct).sum
  let sumOfMaxProducts := (rows1.map Row.maxProduct).sum
  if sumOfMinProducts > s.columnSum ∨ sumOfMaxProducts < s.columnSum then
    (false, { s0 with rows := rows1, failed := true })
  else
    let rows2 := preparedRows s
    let perm := computeRowPermute rows2
    if complexCond rows2 s.maxColumnValue then
      let rows3 := buildTables s.maxColumnValue.toNat rows2
      let tab0 := (rows3.getD 0 default).soluble
      if s.columns.any fun c => decide ((solAt tab0 c).min < 0) then
        (false, { s0 with rows := rows3, rowPermute := perm, failed := true })
      else
        (true, { s0 with rows := rows3, rowPermute := perm, complex := true })
    else
      (true, { s0 with rows := rows2, rowPermute := perm })

/-- Inner loop of `DiophantineSystem::viable`: does some prefix of the
columns, restricted to values `≥ lowerLimit`, sum to at least `target`?
`acc` is the running `localColumnSum`. -/
def viableScan (lowerLimit target acc : Int) : List Int → Bool
  | [] => false
  | c :: cs =>
    if c ≥ lowerLimit then
      if acc + c ≥ target then true else viableScan lowerLimit target (acc + c) cs
    else viableScan lowerLimit target acc cs

/-- Outer loop of `DiophantineSystem::viable` over the rows
`row_idx .. nrRows-2`; `acc` is the running `localSumOfMinProducts`. -/
def viableOuter (cols : List Int) (acc : Int) : List Row → Bool
  | [] => true
  | r :: rs =>
    if r.minProduct > 0 then
      if viableScan r.coeff (acc + r.minProduct) 0 cols then
        viableOuter cols (acc + r.minProduct) rs
      else false
    else viableOuter cols acc rs

/-- `DiophantineSystem::viable`. -/
def DiophantineSystem.viable (s : DiophantineSystem) (rowIdx : Nat) : Bool :=
  viableOuter s.columns 0 ((s.rows.take (s.rows.length - 1)).drop rowIdx)

/-- Replace row `i` of the system. -/
def setRow (s : DiophantineSystem) (i : Nat) (r : Row) : DiophantineSystem :=
  { s with rows := s.rows.set i r }

/-- Result of the release/lift scan (`backtrack` section of the two
`multiset*` routines): whether a lift happened, the updated selection and
bag, and the units still to redistribute. -/
structure ScanRes where
  found : Bool
  sels : List Select
  bag : List Int
  undone : Int
deriving Repr, DecidableEq, Inhabited

/-- The backtrack scan of `Row::multisetSelect` (simple path): walk the
columns left to right; at the first column whose `extra` can grow while
units are pending, add one unit there; otherwise release this column's
`extra` into `undone` and its mass back into the bag. -/
def msBacktrack (coeff : Int) (undone : Int) :
    List Select → List Int → ScanRes
  | [], bags => ⟨false, [], bags, undone⟩
  | sels, [] => ⟨false, sels, [], undone⟩
  | s :: ss, b :: bs =>
    if undone > 0 ∧ s.extra < s.maxExtra then
      ⟨true, { s with extra := s.extra + 1 } :: ss, (b - coeff) :: bs, undone - 1⟩
    else if s.extra > 0 then
      let res := msBacktrack coeff (undone + s.extra) ss bs
      ⟨res.found, { s with extra := 0 } :: res.sels,
       (b + s.extra * coeff) :: res.bag, res.undone⟩
    else
      let res := msBacktrack coeff undone ss bs
      ⟨res.found, s :: res.sels, b :: res.bag, res.undone⟩

/-- The `forwards` loop of `Row::multisetSelect` (simple path): greedily
assign `min(undone, maxExtra)` to each column from the left until no units
remain.  Running off the end with units pending is the
`Assert(j < bagLength)` overrun — undefined behaviour, modelled as `none`. -/
def msForwards (coeff : Int) :
    Int → List Select → List Int → Option (List Select × List Int)
  | undone, sels, bags =>
    if undone ≤ 0 then some (sels, bags)
    else
      match sels, bags with
      | s :: ss, b :: bs =>
        let t := min undone s.maxExtra
        if t > 0 then
          match msForwards coeff (undone - t) ss bs with
          | none => none
          | some (ss', bs') =>
            some ({ s with extra := t } :: ss', (b - t * coeff) :: bs')
        else
          match msForwards coeff undone ss bs with
          | none => none
          | some (ss', bs') => some (s :: ss', b :: bs')
      | _, _ => none

/-- `DiophantineSystem::Row::multisetSelect`.  Returns the C++ return value
together with the updated row and bag. -/
def Row.multisetSelect (r : Row) (bag : List Int) (findFirst : Bool) :
    Option (Bool × Row × List Int) :=
  if findFirst then
    match msForwards r.coeff r.currentSize r.selection bag with
    | none => none
    | some (sel', bag') => some (true, { r with selection := sel' }, bag')
  else
    if r.currentSize > 0 then
      let res := msBacktrack r.coeff 0 r.selection bag
      if res.found then
        match msForwards r.coeff res.undone res.sels res.bag with
        | none => none
        | some (sel', bag') => some (true, { r with selection := sel' }, bag')
      else some (false, { r with selection := res.sels }, res.bag)
    else some (false, r, bag)

/-- `DiophantineSystem::solveLastRowSimple`: the last sorted row absorbs
whatever is left of every column. -/
def solveLastRowSimple (s : DiophantineSystem) : DiophantineSystem :=
  let n := s.rows.length
  let r := s.rows.getD (n - 1) default
  let sel' := List.zipWith
    (fun (sl : Select) (c : Int) => { sl with extra := c }) r.selection s.columns
  setRow s (n - 1) { r with selection := sel' }

/-- `DiophantineSystem::solveRowSimple`. -/
def solveRowSimple (s : DiophantineSystem) (idx : Nat) (findFirst : Bool) :
    Option (Bool × DiophantineSystem) :=
  let r := s.rows.getD idx default
  if findFirst then
    if !(s.viable idx) then some (false, s)
    else
      let sel1 := List.zipWith
        (fun (sl : Select) (c : Int) =>
          { sl with
            extra := 0
            maxExtra := if c ≥ r.coeff then c / r.coeff else 0 })
        r.selection s.columns
      let columnTotal := s.columns.sum
      let maxSum := (sel1.map Select.maxExtra).sum
      let minSize' := max r.minSize
        (ceilingDivision (columnTotal - r.maxLeave) r.coeff)
      let maxSize' := min (min maxSum r.maxSize)
        (floorDivision (columnTotal - r.minLeave) r.coeff)
      let r1 := { r with selection := sel1 }
      if minSize' > maxSize' then some (false, setRow s idx r1)
      else
        let r2 := { r1 with currentSize := minSize', currentMaxSize := maxSize' }
        match r2.multisetSelect s.columns true with
        | none => none
        | some (ok, r3, bag') => some (ok, { setRow s idx r3 with columns := bag' })
  else
    match r.multisetSelect s.columns false with
    | none => none
    | some (true, r', bag') => some (true, { setRow s idx r' with columns := bag' })
    | some (false, r', bag') =>
      if r'.currentSize = r'.currentMaxSize then
        some (false, { setRow s idx r' with columns := bag' })
      else
        let r2 := { r' with currentSize := r'.currentSize + 1 }
        match r2.multisetSelect bag' true with
        | none => none
        | some (ok, r3, bag'') => some (ok, { setRow s idx r3 with columns := bag'' })

/-- The `for(;;)` walk of `DiophantineSystem::solveSimple`, with fuel. -/
def solveSimpleLoop : Nat → DiophantineSystem → Nat → Bool →
    Option (Bool × DiophantineSystem)
  | 0, _, _, _ => none
  | f + 1, s, i, ff =>
    match solveRowSimple s i ff with
    | none => none
    | some (true, s') =>
      if i = s'.rows.length - 2 then some (true, s')
      else solveSimpleLoop f s' (i + 1) true
    | some (false, s') =>
      if i = 0 then some (false, s')
      else solveSimpleLoop f s' (i - 1) false

/-- `DiophantineSystem::solveSimple`. -/
def solveSimple (fuel : Nat) (s : DiophantineSystem) (findFirst : Bool) :
    Option (Bool × DiophantineSystem) :=
  let run : Option (Bool × DiophantineSystem) :=
    if s.rows.length > 1 then
      solveSimpleLoop fuel s (if findFirst then 0 else s.rows.length - 2) findFirst
    else some (findFirst, s)
  match run with
  | none => none
  | some (true, s') => some (true, solveLastRowSimple s')
  | some (false, s') => some (false, { s' with failed := true })

/-- The `e`-probe loop inside the backtrack scan of `Row::multisetComplex`:
walk `e = 1, 2, ...` (at most `remaining` probes), decrementing the residual
by `coeff` each time, and accept the first `e` whose residual is soluble for
the next row.  Returns the accepted `(e, residual)`, if any. -/
def probeLiftAux (tab : List Soluble) (coeff : Int) :
    Int → Int → Nat → Option (Int × Int)
  | c, e, 0 => none
  | c, e, n + 1 =>
    let c' := c - coeff
    if (solAt tab c').min ≠ INSOLUBLE then some (e, c')
    else probeLiftAux tab coeff c' (e + 1) n

/-- The backtrack scan of `Row::multisetComplex`: like the simple scan, but
a lift at a column may add any increment `e = 1..undone`, taking the first
one that leaves the column soluble for the next row. -/
def msCBacktrack (tab : List Soluble) (coeff : Int) (undone : Int) :
    List Select → List Int → ScanRes
  | [], bags => ⟨false, [], bags, undone⟩
  | sels, [] => ⟨false, sels, [], undone⟩
  | s :: ss, b :: bs =>
    let lifted : Option (Int × Int) :=
      if undone > 0 ∧ s.extra < s.maxExtra then
        probeLiftAux tab coeff b 1 undone.toNat
      else none
    match lifted with
    | some ec =>
      ⟨true, { s with extra := s.extra + ec.1 } :: ss, ec.2 :: bs, undone - ec.1⟩
    | none =>
      if s.extra > 0 then
        let res := msCBacktrack tab coeff (undone + s.extra) ss bs
        ⟨res.found, { s with extra := 0 } :: res.sels,
         (b + s.extra * coeff) :: res.bag, res.undone⟩
      else
        let res := msCBacktrack tab coeff undone ss bs
        ⟨res.found, s :: res.sels, b :: res.bag, res.undone⟩

/-- Result of the `forwards` loop of `Row::multisetComplex`: it either
completes a selection, or jumps to the backtrack scan (`undone` having been
set to `0`), or overruns the bag (undefined behaviour). -/
inductive FRes where
  | ok (sels : List Select) (bag : List Int)
  | back (sels : List Select) (bag : List Int)
  | crash
deriving Repr, DecidableEq, Inhabited

/-- Reattach a processed column in front of a `forwards` result. -/
def FRes.prepend : FRes → Select → Int → FRes
  | .ok ss bs, s, b => .ok (s :: ss) (b :: bs)
  | .back ss bs, s, b => .back (s :: ss) (b :: bs)
  | .crash, _, _ => .crash

/-- The `forwards` loop of `Row::multisetComplex`: take each column's full
`maxExtra` while it fits in `undone`; at the first column where it does not,
assign exactly `undone` and accept iff the residual is soluble for the next
row, otherwise jump back to the backtrack scan. -/
def msCForwards (tab : List Soluble) (coeff : Int) :
    Int → List Select → List Int → FRes
  | undone, sels, bags =>
    if undone ≤ 0 then .ok sels bags
    else
      match sels, bags with
      | s :: ss, b :: bs =>
        let t := s.maxExtra
        if t ≤ undone then
          if t > 0 then
            (msCForwards tab coeff (undone - t) ss bs).prepend
              { s with extra := t } (b - t * coeff)
          else (msCForwards tab coeff undone ss bs).prepend s b
        else
          let b' := b - undone * coeff
          let s' := { s with extra := undone }
          if (solAt tab b').min = INSOLUBLE then .back (s' :: ss) (b' :: bs)
          else .ok (s' :: ss) (b' :: bs)
      | _, _ => .crash

/-- The `forwards` / `backtrack` cycle of `Row::multisetComplex`, with fuel
for the unbounded mutual jumps. -/
def msCycle (tab : List Soluble) (coeff : Int) :
    Nat → Int → List Select → List Int → Option (Bool × List Select × List Int)
  | 0, _, _, _ => none
  | f + 1, undone, sels, bags =>
    match msCForwards tab coeff undone sels bags with
    | .ok ss bs => some (true, ss, bs)
    | .crash => none
    | .back ss bs =>
      let r := msCBacktrack tab coeff 0 ss bs
      if r.found then msCycle tab coeff f r.undone r.sels r.bag
      else some (false, r.sels, r.bag)

/-- `DiophantineSystem::Row::multisetComplex`. -/
def Row.multisetComplex (r : Row) (fuel : Nat) (bag : List Int)
    (tab : List Soluble) (findFirst : Bool) :
    Option (Bool × Row × List Int) :=
  if findFirst then
    match msCycle tab r.coeff fuel r.currentSize r.selection bag with
    | none => none
    | some (ok, ss, bs) => some (ok, { r with selection := ss }, bs)
  else
    if r.currentSize > 0 then
      let res := msCBacktrack tab r.coeff 0 r.selection bag
      if res.found then
        match msCycle tab r.coeff fuel res.undone res.sels res.bag with
        | none => none
        | some (ok, ss, bs) => some (ok, { r with selection := ss }, bs)
      else some (false, { r with selection := res.sels }, res.bag)
    else some (false, r, bag)

/-- `DiophantineSystem::solveLastRowComplex`: each remaining column value is
absorbed through the last row's solubility table. -/
def solveLastRowComplex (s : DiophantineSystem) : DiophantineSystem :=
  let n := s.rows.length
  let r := s.rows.getD (n - 1) default
  let sel' := List.zipWith
    (fun (sl : Select) (c : Int) => { sl with extra := (solAt r.soluble c).min })
    r.selection s.columns
  setRow s (n - 1) { r with selection := sel' }

/-- The `for(; currentSize <= currentMaxSize; currentSize++)` loop of
`solveRowComplex`; the iteration count is fixed at entry. -/
def sizeLoopComplex (tab : List Soluble) (fuel : Nat) :
    Nat → Row → List Int → Option (Bool × Row × List Int)
  | 0, r, bag => some (false, r, bag)
  | n + 1, r, bag =>
    match r.multisetComplex fuel bag tab true with
    | none => none
    | some (true, r', bag') => some (true, r', bag')
    | some (false, r', bag') =>
      sizeLoopComplex tab fuel n { r' with currentSize := r'.currentSize + 1 } bag'

/-- Restoration of the base shares on final failure of `solveRowComplex`
(`columns[i] += selection[i].base * coeff`). -/
def restoreBases (coeff : Int) (sels : List Select) (bag : List Int) : List Int :=
  List.zipWith (fun (sl : Select) (b : Int) =>
    if sl.base > 0 then b + sl.base * coeff else b) sels bag

/-- `DiophantineSystem::solveRowComplex`. -/
def solveRowComplex (fuel : Nat) (s : DiophantineSystem) (idx : Nat)
    (findFirst : Bool) : Option (Bool × DiophantineSystem) :=
  let r := s.rows.getD idx default
  let tab2 := (s.rows.getD (idx + 1) default).soluble
  if findFirst then
    if !(s.viable idx) then some (false, s)
    else
      let sel1 := List.zipWith
        (fun (sl : Select) (c : Int) =>
          { base := (solAt r.soluble c).min
            extra := 0
            maxExtra := (solAt r.soluble c).max - (solAt r.soluble c).min })
        r.selection s.columns
      let columnTotal := s.columns.sum
      let minSum := (s.columns.map fun c => (solAt r.soluble c).min).sum
      let maxSum := (s.columns.map fun c => (solAt r.soluble c).max).sum
      let minSize' := max (max minSum r.minSize)
        (ceilingDivision (columnTotal - r.maxLeave) r.coeff)
      let maxSize' := min (min maxSum r.maxSize)
        (floorDivision (columnTotal - r.minLeave) r.coeff)
      let r1 := { r with selection := sel1 }
      if minSize' > maxSize' then some (false, setRow s idx r1)
      else
        let r2 := { r1 with
                    currentSize := minSize' - minSum
                    currentMaxSize := maxSize' - minSum }
        let bag0 := List.zipWith
          (fun (sl : Select) (b : Int) =>
            if sl.base > 0 then b - sl.base * r.coeff else b) sel1 s.columns
        let n := (r2.currentMaxSize - r2.currentSize + 1).toNat
        match sizeLoopComplex tab2 fuel n r2 bag0 with
        | none => none
        | some (true, r3, bag') =>
          some (true, { setRow s idx r3 with columns := bag' })
        | some (false, r3, bag') =>
          some (false, { setRow s idx r3 with
                         columns := restoreBases r3.coeff r3.selection bag' })
  else
    match r.multisetComplex fuel s.columns tab2 false with
    | none => none
    | some (true, r', bag') => some (true, { setRow s idx r' with columns := bag' })
    | some (false, r', bag') =>
      let r2 := { r' with currentSize := r'.currentSize + 1 }
      let n := (r2.currentMaxSize - r2.currentSize + 1).toNat
      match sizeLoopComplex tab2 fuel n r2 bag' with
      | none => none
      | some (true, r3, bag'') =>
        some (true, { setRow s idx r3 with columns := bag'' })
      | some (false, r3, bag'') =>
        some (false, { setRow s idx r3 with
                       columns := restoreBases r3.coeff r3.selection bag'' })

/-- The `for(;;)` walk of `DiophantineSystem::solveComplex`, with fuel. -/
def solveComplexLoop : Nat → DiophantineSystem → Nat → Bool →
    Option (Bool × DiophantineSystem)
  | 0, _, _, _ => none
  | f + 1, s, i, ff =>
    match solveRowComplex (f + 1) s i ff with
    | none => none
    | some (true, s') =>
      if i = s'.rows.length - 2 then some (true, s')
      else solveComplexLoop f s' (i + 1) true
    | some (false, s') =>
      if i = 0 then some (false, s')
      else solveComplexLoop f s' (i - 1) false

/-- `DiophantineSystem::solveComplex`. -/
def solveComplex (fuel : Nat) (s : DiophantineSystem) (findFirst : Bool) :
    Option (Bool × DiophantineSystem) :=
  let run : Option (Bool × DiophantineSystem) :=
    if s.rows.length > 1 then
      solveComplexLoop fuel s (if findFirst then 0 else s.rows.length - 2) findFirst
    else some (findFirst, s)
  match run with
  | none => none
  | some (true, s') => some (true, solveLastRowComplex s')
  | some (false, s') => some (false, { s' with failed := true })

/-- `DiophantineSystem::solve`.  A call on a failed system trips
`Assert(!failed, ...)` (undefined behaviour), modelled as `none`. -/
def DiophantineSystem.solve (fuel : Nat) (s : DiophantineSystem) :
    Option (Bool × DiophantineSystem) :=
  if !s.closed then
    match s.precompute with
    | (false, s') => some (false, s')
    | (true, s') =>
      if s'.complex then solveComplex fuel s' true else solveSimple fuel s' true
  else if s.failed then none
  else if s.complex then solveComplex fuel s false else solveSimple fuel s false

/-- An insertRow argument triple. -/
structure RowIn where
  coeff : Int
  minSize : Int
  maxSize : Int
deriving Repr, DecidableEq, Inhabited

/-- Declare a system: insert the given rows, then the given columns, into a
fresh solver. -/
def buildSystem (rs : List RowIn) (cs : List Int) : DiophantineSystem :=
  cs.foldl (fun s c => s.insertColumn c)
    (rs.foldl (fun s r => s.insertRow r.coeff r.minSize r.maxSize)
      DiophantineSystem.empty)

/-- Modelled from the spec: `DiophantineSystem::solution(row, column)` lives
in the missing header; per spec §4.1 it reads
`selection[col].base + selection[col].extra` at `rows[rowPermute[row]]`. -/
def DiophantineSystem.solution (s : DiophantineSystem) (row col : Nat) : Int :=
  let r := s.rows.getD (s.rowPermute.getD row 0) default
  let sl := r.selection.getD col default
  sl.base + sl.extra

/-! Facts about freshly built systems. -/

theorem foldl_insertColumn_closed (cs : List Int) (s : DiophantineSystem) :
    (cs.foldl (fun t c => t.insertColumn c) s).closed = s.closed := by
  induction cs generalizing s with
  | nil => rfl
  | cons c cs ih => simpa [DiophantineSystem.insertColumn] using ih _

theorem foldl_insertRow_closed (rs : List RowIn) (s : DiophantineSystem) :
    (rs.foldl (fun t r => t.insertRow r.coeff r.minSize r.maxSize) s).closed
      = s.closed := by
  induction rs generalizing s with
  | nil => rfl
  | cons r rs ih => simpa [DiophantineSystem.insertRow] using ih _

theorem buildSystem_closed (rs : List RowIn) (cs : List Int) :
    (buildSystem rs cs).closed = false := by
  simp [buildSystem, foldl_insertColumn_closed, foldl_insertRow_closed,
    DiophantineSystem.empty]

/-- C9, counterexample: for `insertRow(3, 1, 1)` and `insertColumn(6)` the
first `solve()` does NOT return true (and the system is never classified
complex): the trivial totals check already fails, because the sum of
`maxProduct`s is `1 · 3 = 3 < 6 = columnSum`. -/
theorem c9_first_solve_fails :
    ((buildSystem [⟨3, 1, 1⟩] [6]).solve 1000).map
      (fun bs => (bs.1, bs.2.complex)) = some (false, false) := by decide

/-- C9, amended: for the input `insertRow(3, 1, 1)`, `insertColumn(6)`, the
first `solve()` returns false and sets the `failed` flag (the trivial totals
check fails: the sum of `maxProduct`s is `3 < columnSum = 6`, since
`maxSize = 1` caps the row sum at `1` while balance would need `2`); the
system is never classified complex, and no further `solve()` call is
legal. -/
theorem c9_amended :
    ((buildSystem [⟨3, 1, 1⟩] [6]).solve 1000).map
      (fun bs => (bs.1, bs.2.complex, bs.2.failed, bs.2.closed))
      = some (false, false, true, true) := by decide

/-- C4, code evaluated at the failing input: inserting rows with
coefficients `2` then `1` and columns `3, 2`, precomputation succeeds but
leaves the rows sorted by ASCENDING coefficient (`[1, 2]`), not descending:
`rowLt` in this repository compares `i.coeff - j.coeff < 0`, whereas its own
comment (and the README, and the upstream Maude source) require descending
coefficients.  The `rowPermute` half of the claim does hold: row names `0`
(coeff 2) and `1` (coeff 1) map to sorted positions `1` and `0`. -/
theorem c4_sorted_ascending :
    ((buildSystem [⟨2, 1, 2⟩, ⟨1, 0, 5⟩] [3, 2]).precompute.1,
     (buildSystem [⟨2, 1, 2⟩, ⟨1, 0, 5⟩] [3, 2]).precompute.2.rows.map Row.coeff,
     (buildSystem [⟨2, 1, 2⟩, ⟨1, 0, 5⟩] [3, 2]).precompute.2.rowPermute)
      = (true, [1, 2], [1, 0]) := by decide

/-- C5, code evaluated at the failing input: the system with rows
`(2,1,2), (1,0,5)` and columns `3, 2` has a row with `coeff = 1` and
`maxSize = 5 ≥ 3 = maxColumnValue`, so the claim (and the README) classify
it simple; the code classifies it COMPLEX, because the ascending sort (see
`c4_sorted_ascending`) puts the LARGEST coefficient in the last sorted row,
where the simplicity test looks. -/
theorem c5_classifies_complex :
    ((buildSystem [⟨2, 1, 2⟩, ⟨1, 0, 5⟩] [3, 2]).precompute.1,
     (buildSystem [⟨2, 1, 2⟩, ⟨1, 0, 5⟩] [3, 2]).precompute.2.complex,
     (buildSystem [⟨2, 1, 2⟩, ⟨1, 0, 5⟩] [3, 2]).maxColumnValue)
      = (true, true, 3) := by decide

/-- C8: for a freshly declared system, if the sum of `minProduct`s exceeds
`columnSum`, or the sum of `maxProduct`s falls short of `columnSum`, or the
system is classified complex and some column value is insoluble at row 0,
then the first `solve()` returns false and sets the `failed` flag. -/
theorem c8_trivial_infeasibility (rs : List RowIn) (cs : List Int) (fuel : Nat)
    (hinf :
      ((precomputedRows (buildSystem rs cs)).map Row.minProduct).sum
          > (buildSystem rs cs).columnSum ∨
      ((precomputedRows (buildSystem rs cs)).map Row.maxProduct).sum
          < (buildSystem rs cs).columnSum ∨
      (complexCond (preparedRows (buildSystem rs cs))
          (buildSystem rs cs).maxColumnValue ∧
        ∃ c ∈ (buildSystem rs cs).columns,
          (solAt ((buildTables (buildSystem rs cs).maxColumnValue.toNat
              (preparedRows (buildSystem rs cs))).getD 0 default).soluble c).min
            = INSOLUBLE)) :
    ((buildSystem rs cs).solve fuel).map (fun bs => (bs.1, bs.2.failed))
      = some (false, true) := by
  have hclosed := buildSystem_closed rs cs
  set s := buildSystem rs cs with hs
  have hpre : s.precompute.1 = false ∧ s.precompute.2.failed = true := by
    unfold DiophantineSystem.precompute
    by_cases h1 :
        ((precomputedRows s).map Row.minProduct).sum > s.columnSum ∨
        ((precomputedRows s).map Row.maxProduct).sum < s.columnSum
    · simp [h1]
    · rcases hinf with h | h | h
      · exact absurd (Or.inl h) h1
      · exact absurd (Or.inr h) h1
      · rcases h with ⟨hcc, c, hc, hins⟩
        have hany : (s.columns.any fun c =>
            decide ((solAt ((buildTables s.maxColumnValue.toNat
              (preparedRows s)).getD 0 default).soluble c).min < 0)) = true := by
          rw [List.any_eq_true]
          exact ⟨c, hc, by rw [hins]; decide⟩
        simp only [h1, if_false, hcc, if_true, hany]
        simp
  unfold DiophantineSystem.solve
  rw [hclosed]
  simp only [Bool.not_false, if_true]
  obtain ⟨h1, h2⟩ := hpre
  rcases hp : s.precompute with ⟨b, s'⟩
  rw [hp] at h1 h2
  simp at h1
  subst h1
  simpa using h2

/-- C8, witness: the one-row system `(3, 1, 1)` with column `6` has
`maxProduct` sum `3 < 6`, and its first `solve()` indeed fails
terminally. -/
theorem c8_witness :
    ((buildSystem [⟨3, 1, 1⟩] [6]).solve 5).map (fun bs => (bs.1, bs.2.failed))
      = some (false, true) :=
  c8_trivial_infeasibility [⟨3, 1, 1⟩] [6] 5 (Or.inr (Or.inl (by decide)))

/-! Solubility: ground truth.  A completion of a suffix of rows absorbs a
magnitude `v` by choosing a count for every row, bounded by that row's
`maxSize`, with coefficient-weighted sum exactly `v` (spec §4.3 / glossary,
and the commentary above `buildSolubilityVectors`). -/

/-- `RowsAbsorb rs v ks`: the counts `ks` (one per row of `rs`, each in
`[0, maxSize]`) place `ks l` copies of `coeff l` and absorb exactly `v`. -/
inductive RowsAbsorb : List Row → Int → List Int → Prop where
  | nil : RowsAbsorb [] 0 []
  | cons {r : Row} {rs : List Row} {k v : Int} {ks : List Int} :
      0 ≤ k → k ≤ r.maxSize → RowsAbsorb rs v ks →
      RowsAbsorb (r :: rs) (k * r.coeff + v) (k :: ks)

/-- Some completion of `rs` absorbs `v`. -/
def Feasible (rs : List Row) (v : Int) : Prop := ∃ ks, RowsAbsorb rs v ks

/-- Some completion of `rs` absorbs `v` placing exactly `k` copies at the
first row. -/
def HeadCount (rs : List Row) (v k : Int) : Prop := ∃ ks, RowsAbsorb rs v (k :: ks)

theorem rowsAbsorb_nil_iff {v : Int} {ks : List Int} :
    RowsAbsorb [] v ks ↔ v = 0 ∧ ks = [] := by
  constructor
  · intro h; cases h; exact ⟨rfl, rfl⟩
  · rintro ⟨rfl, rfl⟩; exact .nil

theorem rowsAbsorb_cons_iff {r : Row} {rs : List Row} {v k : Int} {ks : List Int} :
    RowsAbsorb (r :: rs) v (k :: ks) ↔
      0 ≤ k ∧ k ≤ r.maxSize ∧ RowsAbsorb rs (v - k * r.coeff) ks := by
  constructor
  · intro h
    cases h with
    | cons h0 h1 h2 => exact ⟨h0, h1, by simpa using h2⟩
  · rintro ⟨h0, h1, h2⟩
    have := RowsAbsorb.cons h0 h1 h2
    simpa using this

theorem headCount_cons_iff {r : Row} {rs : List Row} {v k : Int} :
    HeadCount (r :: rs) v k ↔
      0 ≤ k ∧ k ≤ r.maxSize ∧ Feasible rs (v - k * r.coeff) := by
  constructor
  · rintro ⟨ks, h⟩
    rw [rowsAbsorb_cons_iff] at h
    exact ⟨h.1, h.2.1, ks, h.2.2⟩
  · rintro ⟨h0, h1, ks, h2⟩
    exact ⟨ks, rowsAbsorb_cons_iff.mpr ⟨h0, h1, h2⟩⟩

theorem feasible_cons_iff {r : Row} {rs : List Row} {v : Int} :
    Feasible (r :: rs) v ↔ ∃ k, HeadCount (r :: rs) v k := by
  constructor
  · rintro ⟨ks, h⟩
    cases h with
    | cons h0 h1 h2 => exact ⟨_, _, RowsAbsorb.cons h0 h1 h2⟩
  · rintro ⟨k, ks, h⟩; exact ⟨k :: ks, h⟩

theorem feasible_nil_iff {v : Int} : Feasible [] v ↔ v = 0 := by
  constructor
  · rintro ⟨ks, h⟩; exact (rowsAbsorb_nil_iff.mp h).1
  · rintro rfl; exact ⟨[], .nil⟩

theorem rowsAbsorb_nonneg {rs : List Row} {v : Int} {ks : List Int}
    (hpos : ∀ r ∈ rs, 0 < r.coeff) (h : RowsAbsorb rs v ks) : 0 ≤ v := by
  induction h with
  | nil => exact le_refl 0
  | cons h0 h1 h2 ih =>
    rename_i r rs' k w ks'
    have hc : 0 < r.coeff := hpos r (List.mem_cons_self r rs')
    have : 0 ≤ k * r.coeff := mul_nonneg h0 hc.le
    have hw : 0 ≤ w := ih fun x hx => hpos x (List.mem_cons_of_mem r hx)
    omega

theorem feasible_nonneg {rs : List Row} {v : Int}
    (hpos : ∀ r ∈ rs, 0 < r.coeff) (h : Feasible rs v) : 0 ≤ v := by
  rcases h with ⟨ks, h⟩; exact rowsAbsorb_nonneg hpos h

/-! Generic facts about `solAt` on tables built by mapping over a range. -/

theorem solAt_range_map (f : Nat → Soluble) (len : Nat) {v : Int}
    (hv : 0 ≤ v) (hlt : v.toNat < len) :
    solAt ((List.range len).map f) v = f v.toNat := by
  unfold solAt
  rw [if_pos hv]
  rw [List.getD_eq_getElem?_getD]
  rw [List.getElem?_map]
  simp [List.getElem?_range hlt]

theorem baseTable_solAt {coeff maxSize : Int} {maxCV : Nat} {v : Int}
    (hv : 0 ≤ v) (hle : v ≤ (maxCV : Int)) :
    solAt (baseTable coeff maxSize maxCV) v =
      if v % coeff = 0 ∧ v / coeff ≤ maxSize then
        { min := v / coeff, max := v / coeff }
      else { min := INSOLUBLE, max := INSOLUBLE } := by
  unfold baseTable
  have hlt : v.toNat < maxCV + 1 := by omega
  rw [solAt_range_map _ _ hv hlt]
  have : ((v.toNat : Int)) = v := Int.toNat_of_nonneg hv
  rw [this]

/-- Correctness of one solubility entry `e` for magnitude `v` over the row
suffix `rs`: the spec's reading of `Soluble` (§3): `min` / `max` are the
least / greatest head count over completions, and `INSOLUBLE` marks exactly
the magnitudes with no completion. -/
def EntryCorrect (rs : List Row) (v : Int) (e : Soluble) : Prop :=
  (e.min = INSOLUBLE ↔ ¬ Feasible rs v) ∧
  (e.max = INSOLUBLE ↔ ¬ Feasible rs v) ∧
  (∀ k, HeadCount rs v k → e.min ≤ k ∧ k ≤ e.max) ∧
  (Feasible rs v → HeadCount rs v e.min ∧ HeadCount rs v e.max)

/-- Correctness of a whole solubility table over the suffix `rs`. -/
def TableCorrect (maxCV : Nat) (rs : List Row) (tab : List Soluble) : Prop :=
  ∀ v : Int, 0 ≤ v → v ≤ (maxCV : Int) → EntryCorrect rs v (solAt tab v)

theorem headCount_singleton_iff {r : Row} {v k : Int} :
    HeadCount [r] v k ↔ 0 ≤ k ∧ k ≤ r.maxSize ∧ v = k * r.coeff := by
  rw [headCount_cons_iff, feasible_nil_iff]
  constructor
  · rintro ⟨h0, h1, h2⟩; exact ⟨h0, h1, by omega⟩
  · rintro ⟨h0, h1, h2⟩; exact ⟨h0, h1, by omega⟩

theorem baseTable_correct (maxCV : Nat) (r : Row)
    (hc : 0 < r.coeff) (hm : 0 ≤ r.maxSize) :
    TableCorrect maxCV [r] (baseTable r.coeff r.maxSize maxCV) := by
  intro v hv0 hvle
  rw [baseTable_solAt hv0 hvle]
  by_cases h : v % r.coeff = 0 ∧ v / r.coeff ≤ r.maxSize
  · rw [if_pos h]
    have hq0 : 0 ≤ v / r.coeff := Int.ediv_nonneg hv0 hc.le
    have hqc : v = (v / r.coeff) * r.coeff := by
      have h1 := Int.ediv_add_emod v r.coeff
      rw [mul_comm r.coeff (v / r.coeff)] at h1
      omega
    have hfeas : Feasible [r] v := by
      rw [feasible_cons_iff]
      exact ⟨v / r.coeff, headCount_singleton_iff.mpr ⟨hq0, h.2, hqc⟩⟩
    have hhead : HeadCount [r] v (v / r.coeff) :=
      headCount_singleton_iff.mpr ⟨hq0, h.2, hqc⟩
    refine ⟨?_, ?_, ?_, ?_⟩
    · simp only [INSOLUBLE]; constructor
      · intro he; omega
      · intro hnf; exact absurd hfeas hnf
    · simp only [INSOLUBLE]; constructor
      · intro he; omega
      · intro hnf; exact absurd hfeas hnf
    · intro k hk
      rcases headCount_singleton_iff.mp hk with ⟨hk0, hk1, hk2⟩
      have hkq : k = v / r.coeff := by
        have h2 : k * r.coeff = (v / r.coeff) * r.coeff := by omega
        exact mul_right_cancel₀ (by omega) h2
      dsimp only
      constructor <;> omega
    · intro _; exact ⟨hhead, hhead⟩
  · rw [if_neg h]
    have hnf : ¬ Feasible [r] v := by
      intro hf
      rcases feasible_cons_iff.mp hf with ⟨k, hk⟩
      rcases headCount_singleton_iff.mp hk with ⟨hk0, hk1, hk2⟩
      apply h
      constructor
      · rw [hk2]; exact Int.mul_emod_left k r.coeff
      · rw [hk2]
        rw [Int.mul_ediv_cancel k (by omega)]
        exact hk1
    refine ⟨?_, ?_, ?_, ?_⟩
    · simp [hnf]
    · simp [hnf]
    · intro k hk
      exact absurd (feasible_cons_iff.mpr ⟨k, hk⟩) hnf
    · intro hf; exact absurd hf hnf

/-- What the `newMax` scan computes: either no count in `[1, n]` has a
soluble remainder (result `0`), or the result is the largest such count. -/
theorem scanNewMax_succ (prev : List Soluble) (v c : Int) (n : Nat) :
    scanNewMax prev v c (n + 1) =
      if (solAt prev (v - ((n + 1 : Nat) : Int) * c)).min ≠ INSOLUBLE
      then ((n + 1 : Nat) : Int) else scanNewMax prev v c n := rfl

theorem scanNewMax_spec (prev : List Soluble) (v c : Int) (n : Nat) :
    (scanNewMax prev v c n = 0 ∧
      ∀ j : Nat, 1 ≤ j → j ≤ n → (solAt prev (v - (j : Int) * c)).min = INSOLUBLE)
    ∨ (1 ≤ scanNewMax prev v c n ∧ scanNewMax prev v c n ≤ (n : Int) ∧
       (solAt prev (v - scanNewMax prev v c n * c)).min ≠ INSOLUBLE ∧
       ∀ j : Nat, scanNewMax prev v c n < (j : Int) → j ≤ n →
         (solAt prev (v - (j : Int) * c)).min = INSOLUBLE) := by
  induction n with
  | zero =>
    left
    refine ⟨rfl, ?_⟩
    intro j h1 h2; omega
  | succ n ih =>
    by_cases h : (solAt prev (v - ((n : Int) + 1) * c)).min ≠ INSOLUBLE
    · right
      have hs : scanNewMax prev v c (n + 1) = ((n : Int) + 1) := by
        rw [scanNewMax_succ]
        rw [if_pos (by push_cast; exact h)]
        push_cast
        ring
      rw [hs]
      refine ⟨by omega, by omega, by simpa using h, ?_⟩
      intro j hj1 hj2
      omega
    · have hs : scanNewMax prev v c (n + 1) = scanNewMax prev v c n := by
        rw [scanNewMax_succ]
        rw [if_neg (by push_cast at h ⊢; exact h)]
      push_cast at h
      rcases ih with ⟨h0, hall⟩ | ⟨h1, h2, h3, h4⟩
      · left
        refine ⟨by rw [hs, h0], ?_⟩
        intro j hj1 hj2
        rcases Nat.lt_or_ge j (n + 1) with hj | hj
        · exact hall j hj1 (by omega)
        · have : j = n + 1 := by omega
          subst this
          simpa using not_not.mp h
      · right
        rw [hs]
        refine ⟨h1, by omega, h3, ?_⟩
        intro j hj1 hj2
        rcases Nat.lt_or_ge j (n + 1) with hj | hj
        · exact h4 j hj1 (by omega)
        · have : j = n + 1 := by omega
          subst this
          simpa using not_not.mp h

theorem buildNextRow_length (prev : List Soluble) (c m : Int) (n : Nat) :
    (buildNextRow prev c m n).length = n := by
  induction n with
  | zero => rfl
  | succ n ih => simp [buildNextRow, ih]

/-- Entry extraction: the table built up to any length `n > v` holds, at
position `v`, the recurrence entry computed from the prefix of length `v`. -/
theorem buildNextRow_solAt (prev : List Soluble) (c m : Int) (n : Nat)
    {v : Int} (hv : 0 ≤ v) (hlt : v.toNat < n) :
    solAt (buildNextRow prev c m n) v =
      nextEntry prev (buildNextRow prev c m v.toNat) c m v := by
  induction n with
  | zero => omega
  | succ n ih =>
    rcases Nat.lt_or_ge v.toNat n with h | h
    · have hlen : v.toNat < (buildNextRow prev c m n).length := by
        rw [buildNextRow_length]; exact h
      unfold solAt at ih ⊢
      rw [if_pos hv] at ih ⊢
      rw [show buildNextRow prev c m (n + 1)
            = buildNextRow prev c m n ++
              [nextEntry prev (buildNextRow prev c m n) c m (n : Int)] from rfl]
      rw [List.getD_append _ _ _ _ hlen]
      exact ih h
    · have hveq : v.toNat = n := by omega
      have hcast : ((n : Int)) = v := by omega
      unfold solAt
      rw [if_pos hv]
      rw [show buildNextRow prev c m (n + 1)
            = buildNextRow prev c m n ++
              [nextEntry prev (buildNextRow prev c m n) c m (n : Int)] from rfl]
      have hlen : (buildNextRow prev c m n).length = n := buildNextRow_length _ _ _ _
      rw [List.getD_eq_getElem?_getD, List.getElem?_append_right (by omega)]
      rw [hlen, hveq]
      simp [hcast, hveq]

theorem nextEntry_eq (prev acc : List Soluble) (c m v : Int) :
    nextEntry prev acc c m v =
      if 0 ≤ v - c ∧ (solAt acc (v - c)).min ≠ INSOLUBLE ∧
          (solAt acc (v - c)).min < m then
        { min := if (solAt prev v).min = INSOLUBLE
                 then (solAt acc (v - c)).min + 1 else 0,
          max := if (solAt acc (v - c)).max < m then (solAt acc (v - c)).max + 1
                 else scanNewMax prev v c m.toNat }
      else if (solAt prev v).min = INSOLUBLE then
        { min := INSOLUBLE, max := INSOLUBLE }
      else { min := 0, max := 0 } := rfl

theorem buildNextRow_correct (maxCV : Nat) (r : Row) (rest : List Row)
    (prev : List Soluble)
    (hc : 0 < r.coeff) (hm : 0 ≤ r.maxSize)
    (hposRest : ∀ x ∈ rest, 0 < x.coeff)
    (hprev : TableCorrect maxCV rest prev) :
    TableCorrect maxCV (r :: rest)
      (buildNextRow prev r.coeff r.maxSize (maxCV + 1)) := by
  have prevFeas : ∀ w : Int, w ≤ (maxCV : Int) →
      ((solAt prev w).min ≠ INSOLUBLE ↔ Feasible rest w) := by
    intro w hw
    by_cases hw0 : 0 ≤ w
    · have h1 := (hprev w hw0 hw).1
      simp only [ne_eq, h1, not_not]
    · constructor
      · intro hne
        exfalso
        apply hne
        unfold solAt
        rw [if_neg hw0]
      · intro hf
        exact absurd (feasible_nonneg hposRest hf) hw0
  have main : ∀ n : Nat, ∀ v : Int, 0 ≤ v → v ≤ (maxCV : Int) → v.toNat = n →
      EntryCorrect (r :: rest) v
        (solAt (buildNextRow prev r.coeff r.maxSize (maxCV + 1)) v) := by
    intro n
    induction n using Nat.strong_induction_on with
    | _ n ih =>
      intro v hv0 hvle hvn
      have hEv : solAt (buildNextRow prev r.coeff r.maxSize (maxCV + 1)) v =
          nextEntry prev (buildNextRow prev r.coeff r.maxSize v.toNat)
            r.coeff r.maxSize v :=
        buildNextRow_solAt _ _ _ _ hv0 (by omega)
      rw [hEv, nextEntry_eq]
      set t := v - r.coeff with ht
      have hzero : HeadCount (r :: rest) v 0 ↔ Feasible rest v := by
        rw [headCount_cons_iff]
        constructor
        · rintro ⟨-, -, h⟩
          simpa using h
        · intro h
          exact ⟨le_refl 0, hm, by simpa using h⟩
      by_cases ht0 : 0 ≤ t
      · have htlt : t.toNat < v.toNat := by omega
        have htle : t ≤ (maxCV : Int) := by omega
        have hchar : EntryCorrect (r :: rest) t
            (solAt (buildNextRow prev r.coeff r.maxSize (maxCV + 1)) t) :=
          ih t.toNat (by omega) t ht0 htle rfl
        have haccT : solAt (buildNextRow prev r.coeff r.maxSize v.toNat) t =
            solAt (buildNextRow prev r.coeff r.maxSize (maxCV + 1)) t := by
          rw [buildNextRow_solAt _ _ _ _ ht0 htlt,
              buildNextRow_solAt _ _ _ _ ht0 (by omega)]
        rw [haccT]
        set Et := solAt (buildNextRow prev r.coeff r.maxSize (maxCV + 1)) t
          with hEt
        have hlift : ∀ k : Int, HeadCount (r :: rest) t k → k < r.maxSize →
            HeadCount (r :: rest) v (k + 1) := by
          intro k hk hkm
          rw [headCount_cons_iff] at hk ⊢
          refine ⟨by omega, by omega, ?_⟩
          have harith : v - (k + 1) * r.coeff = t - k * r.coeff := by
            rw [ht]; ring
          rw [harith]
          exact hk.2.2
        have hdrop : ∀ k : Int, HeadCount (r :: rest) v k → 1 ≤ k →
            HeadCount (r :: rest) t (k - 1) := by
          intro k hk hk1
          rw [headCount_cons_iff] at hk ⊢
          refine ⟨by omega, by omega, ?_⟩
          have harith : t - (k - 1) * r.coeff = v - k * r.coeff := by
            rw [ht]; ring
          rw [harith]
          exact hk.2.2
        by_cases hC : Et.min ≠ INSOLUBLE ∧ Et.min < r.maxSize
        · rw [if_pos ⟨ht0, hC⟩]
          -- the suffix can place at least one copy here
          have htfeas : Feasible (r :: rest) t := by
            by_contra hnf
            exact hC.1 (hchar.1.mpr hnf)
          have hminHC : HeadCount (r :: rest) t Et.min := (hchar.2.2.2 htfeas).1
          have hmaxHC : HeadCount (r :: rest) t Et.max := (hchar.2.2.2 htfeas).2
          have hminNN : 0 ≤ Et.min := (headCount_cons_iff.mp hminHC).1
          have hmaxLE : Et.max ≤ r.maxSize := (headCount_cons_iff.mp hmaxHC).2.1
          have hminmax : Et.min ≤ Et.max := (hchar.2.2.1 Et.min hminHC).2
          have hkvmin : HeadCount (r :: rest) v (Et.min + 1) :=
            hlift Et.min hminHC hC.2
          have hfeasv : Feasible (r :: rest) v := feasible_cons_iff.mpr ⟨_, hkvmin⟩
          by_cases hz : (solAt prev v).min = INSOLUBLE
          · -- zero copies impossible at v
            have hnzero : ¬ Feasible rest v := by
              intro hfr
              exact ((prevFeas v hvle).mpr hfr) hz
            rw [if_pos hz]
            have hminpart : ∀ k, HeadCount (r :: rest) v k → Et.min + 1 ≤ k := by
              intro k hk
              have hk0 : 0 ≤ k := (headCount_cons_iff.mp hk).1
              have hkne : k ≠ 0 := by
                intro h0
                rw [h0] at hk
                exact hnzero (hzero.mp hk)
              have := (hchar.2.2.1 (k - 1) (hdrop k hk (by omega))).1
              omega
            by_cases hmx : Et.max < r.maxSize
            · rw [if_pos hmx]
              refine ⟨?_, ?_, ?_, ?_⟩
              · simp only [INSOLUBLE]
                constructor
                · intro h; omega
                · intro h; exact absurd hfeasv h
              · simp only [INSOLUBLE]
                constructor
                · intro h; omega
                · intro h; exact absurd hfeasv h
              · intro k hk
                dsimp only
                have hlo := hminpart k hk
                have hk0 : 0 ≤ k := (headCount_cons_iff.mp hk).1
                rcases eq_or_lt_of_le hk0 with h0 | h1
                · omega
                · have := (hchar.2.2.1 (k - 1) (hdrop k hk (by omega))).2
                  omega
              · intro _
                dsimp only
                exact ⟨hkvmin, hlift Et.max hmaxHC hmx⟩
            · rw [if_neg hmx]
              have hmeq : Et.max = r.maxSize := by omega
              -- the scan finds the greatest head count at v
              rcases scanNewMax_spec prev v r.coeff r.maxSize.toNat with
                ⟨hzero', hall⟩ | ⟨hg1, hgle, hgsol, hgall⟩
              · exfalso
                -- Et.min + 1 is a head count at v whose remainder is soluble
                have hrem : Feasible rest (v - (Et.min + 1) * r.coeff) :=
                  (headCount_cons_iff.mp hkvmin).2.2
                have hremle : v - (Et.min + 1) * r.coeff ≤ (maxCV : Int) := by
                  have : 0 ≤ (Et.min + 1) * r.coeff := by positivity
                  omega
                have hsol := (prevFeas _ hremle).mpr hrem
                have hj := hall (Et.min + 1).toNat (by omega) (by omega)
                have hcast : (((Et.min + 1).toNat : Int)) = Et.min + 1 := by omega
                rw [hcast] at hj
                exact hsol hj
              · set g := scanNewMax prev v r.coeff r.maxSize.toNat with hg
                have hgm : g ≤ r.maxSize := by omega
                have hgrem : Feasible rest (v - g * r.coeff) := by
                  refine (prevFeas _ ?_).mp hgsol
                  have : 0 ≤ g * r.coeff := by positivity
                  omega
                have hgHC : HeadCount (r :: rest) v g :=
                  headCount_cons_iff.mpr ⟨by omega, hgm, hgrem⟩
                have hupper : ∀ k, HeadCount (r :: rest) v k → k ≤ g := by
                  intro k hk
                  rcases headCount_cons_iff.mp hk with ⟨hk0, hkm, hkrem⟩
                  by_contra hgt
                  push_neg at hgt
                  have hremle : v - k * r.coeff ≤ (maxCV : Int) := by
                    have : 0 ≤ k * r.coeff := by positivity
                    omega
                  have hsol := (prevFeas _ hremle).mpr hkrem
                  have hj := hgall k.toNat (by omega) (by omega)
                  have hcast : ((k.toNat : Int)) = k := by omega
                  rw [hcast] at hj
                  exact hsol hj
                refine ⟨?_, ?_, ?_, ?_⟩
                · simp only [INSOLUBLE]
                  constructor
                  · intro h; omega
                  · intro h; exact absurd hfeasv h
                · simp only [INSOLUBLE]
                  constructor
                  · intro h; omega
                  · intro h; exact absurd hfeasv h
                · intro k hk
                  dsimp only
                  exact ⟨hminpart k hk, hupper k hk⟩
                · intro _
                  dsimp only
                  exact ⟨hkvmin, hgHC⟩
          · -- zero copies possible at v: minimum is 0
            rw [if_neg hz]
            have hfr : Feasible rest v := (prevFeas v hvle).mp (by simpa using hz)
            have h0HC : HeadCount (r :: rest) v 0 := hzero.mpr hfr
            by_cases hmx : Et.max < r.maxSize
            · rw [if_pos hmx]
              refine ⟨?_, ?_, ?_, ?_⟩
              · simp only [INSOLUBLE]
                constructor
                · intro h; omega
                · intro h; exact absurd hfeasv h
              · simp only [INSOLUBLE]
                constructor
                · intro h; omega
                · intro h; exact absurd hfeasv h
              · intro k hk
                dsimp only
                have hk0 : 0 ≤ k := (headCount_cons_iff.mp hk).1
                rcases eq_or_lt_of_le hk0 with h0 | h1
                · omega
                · have := (hchar.2.2.1 (k - 1) (hdrop k hk (by omega))).2
                  omega
              · intro _
                dsimp only
                exact ⟨h0HC, hlift Et.max hmaxHC hmx⟩
            · rw [if_neg hmx]
              rcases scanNewMax_spec prev v r.coeff r.maxSize.toNat with
                ⟨hzero', hall⟩ | ⟨hg1, hgle, hgsol, hgall⟩
              · exfalso
                have hrem : Feasible rest (v - (Et.min + 1) * r.coeff) :=
                  (headCount_cons_iff.mp hkvmin).2.2
                have hremle : v - (Et.min + 1) * r.coeff ≤ (maxCV : Int) := by
                  have : 0 ≤ (Et.min + 1) * r.coeff := by positivity
                  omega
                have hsol := (prevFeas _ hremle).mpr hrem
                have hj := hall (Et.min + 1).toNat (by omega) (by omega)
                have hcast : (((Et.min + 1).toNat : Int)) = Et.min + 1 := by omega
                rw [hcast] at hj
                exact hsol hj
              · set g := scanNewMax prev v r.coeff r.maxSize.toNat with hg
                have hgm : g ≤ r.maxSize := by omega
                have hgrem : Feasible rest (v - g * r.coeff) := by
                  refine (prevFeas _ ?_).mp hgsol
                  have : 0 ≤ g * r.coeff := by positivity
                  omega
                have hgHC : HeadCount (r :: rest) v g :=
                  headCount_cons_iff.mpr ⟨by omega, hgm, hgrem⟩
                have hupper : ∀ k, HeadCount (r :: rest) v k → k ≤ g := by
                  intro k hk
                  rcases headCount_cons_iff.mp hk with ⟨hk0, hkm, hkrem⟩
                  by_contra hgt
                  push_neg at hgt
                  have hremle : v - k * r.coeff ≤ (maxCV : Int) := by
                    have : 0 ≤ k * r.coeff := by positivity
                    omega
                  have hsol := (prevFeas _ hremle).mpr hkrem
                  have hj := hgall k.toNat (by omega) (by omega)
                  have hcast : ((k.toNat : Int)) = k := by omega
                  rw [hcast] at hj
                  exact hsol hj
                refine ⟨?_, ?_, ?_, ?_⟩
                · simp only [INSOLUBLE]
                  constructor
                  · intro h; omega
                  · intro h; exact absurd hfeasv h
                · simp only [INSOLUBLE]
                  constructor
                  · intro h; omega
                  · intro h; exact absurd hfeasv h
                · intro k hk
                  dsimp only
                  exact ⟨(headCount_cons_iff.mp hk).1, hupper k hk⟩
                · intro _
                  dsimp only
                  exact ⟨h0HC, hgHC⟩
        · -- no way to place one or more copies here
          rw [if_neg (by intro hcon; exact hC ⟨hcon.2.1, hcon.2.2⟩)]
          have hnone : ∀ k, HeadCount (r :: rest) v k → k = 0 := by
            intro k hk
            by_contra hne
            have hk0 : 0 ≤ k := (headCount_cons_iff.mp hk).1
            have hk1 : 1 ≤ k := by omega
            have hkt := hdrop k hk hk1
            have htfeas : Feasible (r :: rest) t := feasible_cons_iff.mpr ⟨_, hkt⟩
            have hminne : Et.min ≠ INSOLUBLE := by
              intro hmine
              exact (hchar.1.mp hmine) htfeas
            have hminHC : HeadCount (r :: rest) t Et.min := (hchar.2.2.2 htfeas).1
            have hbound := (hchar.2.2.1 (k - 1) hkt).1
            have hkm : k ≤ r.maxSize := (headCount_cons_iff.mp hk).2.1
            exact hC ⟨hminne, by omega⟩
          by_cases hz : (solAt prev v).min = INSOLUBLE
          · rw [if_pos hz]
            have hnzero : ¬ Feasible rest v := by
              intro hfr
              exact ((prevFeas v hvle).mpr hfr) hz
            have hnf : ¬ Feasible (r :: rest) v := by
              intro hf
              rcases feasible_cons_iff.mp hf with ⟨k, hk⟩
              have := hnone k hk
              rw [this] at hk
              exact hnzero (hzero.mp hk)
            refine ⟨by simp [hnf], by simp [hnf], ?_, ?_⟩
            · intro k hk
              exact absurd (feasible_cons_iff.mpr ⟨k, hk⟩) hnf
            · intro hf; exact absurd hf hnf
          · rw [if_neg hz]
            have hfr : Feasible rest v := (prevFeas v hvle).mp (by simpa using hz)
            have h0HC : HeadCount (r :: rest) v 0 := hzero.mpr hfr
            have hfeasv : Feasible (r :: rest) v := feasible_cons_iff.mpr ⟨_, h0HC⟩
            refine ⟨?_, ?_, ?_, ?_⟩
            · simp only [INSOLUBLE]
              constructor
              · intro h; omega
              · intro h; exact absurd hfeasv h
            · simp only [INSOLUBLE]
              constructor
              · intro h; omega
              · intro h; exact absurd hfeasv h
            · intro k hk
              dsimp only
              have := hnone k hk
              omega
            · intro _
              dsimp only
              exact ⟨h0HC, h0HC⟩
      · -- t < 0: the `≥ 1 copies` branch is infeasible outright
        rw [if_neg (by intro hcon; exact ht0 hcon.1)]
        have hnone : ∀ k, HeadCount (r :: rest) v k → k = 0 := by
          intro k hk
          rcases headCount_cons_iff.mp hk with ⟨hk0, hkm, hkrem⟩
          by_contra hne
          have hk1 : 1 ≤ k := by omega
          have hw0 : 0 ≤ v - k * r.coeff := feasible_nonneg hposRest hkrem
          have : r.coeff ≤ k * r.coeff := by
            calc r.coeff = 1 * r.coeff := by ring
            _ ≤ k * r.coeff := by
                apply mul_le_mul_of_nonneg_right hk1 hc.le
          omega
        by_cases hz : (solAt prev v).min = INSOLUBLE
        · rw [if_pos hz]
          have hnzero : ¬ Feasible rest v := by
            intro hfr
            exact ((prevFeas v hvle).mpr hfr) hz
          have hnf : ¬ Feasible (r :: rest) v := by
            intro hf
            rcases feasible_cons_iff.mp hf with ⟨k, hk⟩
            have := hnone k hk
            rw [this] at hk
            exact hnzero (hzero.mp hk)
          refine ⟨by simp [hnf], by simp [hnf], ?_, ?_⟩
          · intro k hk
            exact absurd (feasible_cons_iff.mpr ⟨k, hk⟩) hnf
          · intro hf; exact absurd hf hnf
        · rw [if_neg hz]
          have hfr : Feasible rest v := (prevFeas v hvle).mp (by simpa using hz)
          have h0HC : HeadCount (r :: rest) v 0 := hzero.mpr hfr
          have hfeasv : Feasible (r :: rest) v := feasible_cons_iff.mpr ⟨_, h0HC⟩
          refine ⟨?_, ?_, ?_, ?_⟩
          · simp only [INSOLUBLE]
            constructor
            · intro h; omega
            · intro h; exact absurd hfeasv h
          · simp only [INSOLUBLE]
            constructor
            · intro h; omega
            · intro h; exact absurd hfeasv h
          · intro k hk
            dsimp only
            have := hnone k hk
            omega
          · intro _
            dsimp only
            exact ⟨h0HC, h0HC⟩
  intro v hv0 hvle
  exact main v.toNat v hv0 hvle rfl

/-- The solubility table `buildSolubilityVectors` computes for the first row
of a suffix. -/
def tableOf (maxCV : Nat) : List Row → List Soluble
  | [] => []
  | [r] => baseTable r.coeff r.maxSize maxCV
  | r :: r2 :: rest =>
    buildNextRow (tableOf maxCV (r2 :: rest)) r.coeff r.maxSize (maxCV + 1)

theorem tableOf_correct (maxCV : Nat) (rs : List Row)
    (hpos : ∀ x ∈ rs, 0 < x.coeff) (hms : ∀ x ∈ rs, 0 ≤ x.maxSize) :
    rs ≠ [] → TableCorrect maxCV rs (tableOf maxCV rs) := by
  induction rs with
  | nil => intro h; exact absurd rfl h
  | cons r rest ih =>
    intro _
    match rest, ih with
    | [], _ =>
      exact baseTable_correct maxCV r (hpos r (by simp)) (hms r (by simp))
    | r2 :: rest', ih =>
      have hprev : TableCorrect maxCV (r2 :: rest') (tableOf maxCV (r2 :: rest')) :=
        ih (fun x hx => hpos x (List.mem_cons_of_mem r hx))
          (fun x hx => hms x (List.mem_cons_of_mem r hx)) (by simp)
      exact buildNextRow_correct maxCV r (r2 :: rest') _
        (hpos r (by simp)) (hms r (by simp))
        (fun x hx => hpos x (List.mem_cons_of_mem r hx)) hprev

/-- One unfolding step of `buildTables`: the head row gets the table of the
whole suffix, and the tail is processed recursively. -/
theorem buildTables_cons (maxCV : Nat) (r : Row) (rest : List Row) :
    buildTables maxCV (r :: rest) =
      { r with soluble := tableOf maxCV (r :: rest) } :: buildTables maxCV rest := by
  induction rest generalizing r with
  | nil => rfl
  | cons r2 rest' ih =>
    rw [show buildTables maxCV (r :: r2 :: rest')
          = (match buildTables maxCV (r2 :: rest') with
             | [] => []
             | r2' :: rest'' =>
               { r with soluble :=
                   buildNextRow r2'.soluble r.coeff r.maxSize (maxCV + 1) }
                 :: r2' :: rest'') from rfl]
    rw [ih r2]
    rfl

theorem buildTables_length (maxCV : Nat) (rs : List Row) :
    (buildTables maxCV rs).length = rs.length := by
  induction rs with
  | nil => rfl
  | cons r rest ih => rw [buildTables_cons]; simp [ih]

theorem buildTables_getD (maxCV : Nat) (rs : List Row) (i : Nat)
    (h : i < rs.length) :
    (buildTables maxCV rs).getD i default =
      { rs.getD i default with soluble := tableOf maxCV (rs.drop i) } := by
  induction rs generalizing i with
  | nil => simp at h
  | cons r rest ih =>
    rw [buildTables_cons]
    cases i with
    | zero => rfl
    | succ i =>
      simp only [List.getD_cons_succ, List.drop_succ_cons]
      exact ih i (by simpa using h)

/-! Shape of a freshly declared system. -/

/-- The row record created by `insertRow` for caller index `n`. -/
def rowOfIn (n : Nat) (ri : RowIn) : Row :=
  { name := n, coeff := ri.coeff, minSize := ri.minSize, maxSize := ri.maxSize }

/-- The rows created by a sequence of `insertRow` calls starting at caller
index `base`. -/
def rowsOfInput (base : Nat) : List RowIn → List Row
  | [] => []
  | ri :: rest => rowOfIn base ri :: rowsOfInput (base + 1) rest

/-- Running maximum of the column values, as `insertColumn` keeps it. -/
def maxColFold (cs : List Int) : Int :=
  cs.foldl (fun m c => if c > m then c else m) 0

theorem foldl_insertRow_rows (rs : List RowIn) (s : DiophantineSystem) :
    (rs.foldl (fun t r => t.insertRow r.coeff r.minSize r.maxSize) s).rows
      = s.rows ++ rowsOfInput s.rows.length rs := by
  induction rs generalizing s with
  | nil => simp [rowsOfInput]
  | cons ri rest ih =>
    simp only [List.foldl_cons]
    rw [ih]
    simp [DiophantineSystem.insertRow, rowsOfInput, rowOfIn]

theorem foldl_insertColumn_rows (cs : List Int) (s : DiophantineSystem) :
    (cs.foldl (fun t c => t.insertColumn c) s).rows = s.rows := by
  induction cs generalizing s with
  | nil => rfl
  | cons c cs ih => simpa [DiophantineSystem.insertColumn] using ih _

theorem foldl_insertRow_columns (rs : List RowIn) (s : DiophantineSystem) :
    (rs.foldl (fun t r => t.insertRow r.coeff r.minSize r.maxSize) s).columns
      = s.columns := by
  induction rs generalizing s with
  | nil => rfl
  | cons r rest ih => simpa [DiophantineSystem.insertRow] using ih _

theorem foldl_insertRow_columnSum (rs : List RowIn) (s : DiophantineSystem) :
    (rs.foldl (fun t r => t.insertRow r.coeff r.minSize r.maxSize) s).columnSum
      = s.columnSum := by
  induction rs generalizing s with
  | nil => rfl
  | cons r rest ih => simpa [DiophantineSystem.insertRow] using ih _

theorem foldl_insertRow_maxColumnValue (rs : List RowIn) (s : DiophantineSystem) :
    (rs.foldl (fun t r => t.insertRow r.coeff r.minSize r.maxSize) s).maxColumnValue
      = s.maxColumnValue := by
  induction rs generalizing s with
  | nil => rfl
  | cons r rest ih => simpa [DiophantineSystem.insertRow] using ih _

theorem foldl_insertColumn_columns (cs : List Int) (s : DiophantineSystem) :
    (cs.foldl (fun t c => t.insertColumn c) s).columns = s.columns ++ cs := by
  induction cs generalizing s with
  | nil => simp
  | cons c cs ih =>
    simp only [List.foldl_cons]
    rw [ih]
    simp [DiophantineSystem.insertColumn]

theorem foldl_insertColumn_columnSum (cs : List Int) (s : DiophantineSystem) :
    (cs.foldl (fun t c => t.insertColumn c) s).columnSum = s.columnSum + cs.sum := by
  induction cs generalizing s with
  | nil => simp
  | cons c cs ih =>
    simp only [List.foldl_cons]
    rw [ih]
    simp [DiophantineSystem.insertColumn]
    ring

theorem foldl_insertColumn_maxColumnValue (cs : List Int) (s : DiophantineSystem) :
    (cs.foldl (fun t c => t.insertColumn c) s).maxColumnValue
      = cs.foldl (fun m c => if c > m then c else m) s.maxColumnValue := by
  induction cs generalizing s with
  | nil => rfl
  | cons c cs ih =>
    simp only [List.foldl_cons]
    rw [ih]
    rfl

theorem buildSystem_rows (rs : List RowIn) (cs : List Int) :
    (buildSystem rs cs).rows = rowsOfInput 0 rs := by
  unfold buildSystem
  rw [foldl_insertColumn_rows, foldl_insertRow_rows]
  simp [DiophantineSystem.empty]

theorem buildSystem_columns (rs : List RowIn) (cs : List Int) :
    (buildSystem rs cs).columns = cs := by
  unfold buildSystem
  rw [foldl_insertColumn_columns, foldl_insertRow_columns]
  simp [DiophantineSystem.empty]

theorem buildSystem_columnSum (rs : List RowIn) (cs : List Int) :
    (buildSystem rs cs).columnSum = cs.sum := by
  unfold buildSystem
  rw [foldl_insertColumn_columnSum, foldl_insertRow_columnSum]
  simp [DiophantineSystem.empty]

theorem buildSystem_maxColumnValue (rs : List RowIn) (cs : List Int) :
    (buildSystem rs cs).maxColumnValue = maxColFold cs := by
  unfold buildSystem maxColFold
  rw [foldl_insertColumn_maxColumnValue, foldl_insertRow_maxColumnValue]
  simp [DiophantineSystem.empty]

theorem maxColFold_nonneg (cs : List Int) : 0 ≤ maxColFold cs := by
  unfold maxColFold
  suffices h : ∀ m : Int, m ≤ cs.foldl (fun m c => if c > m then c else m) m by
    exact h 0
  induction cs with
  | nil => intro m; simp
  | cons c cs ih =>
    intro m
    simp only [List.foldl_cons]
    by_cases h : c > m
    · rw [if_pos h]
      exact le_trans h.le (ih c)
    · rw [if_neg h]
      exact ih m

theorem le_maxColFold {cs : List Int} {c : Int} (h : c ∈ cs) : c ≤ maxColFold cs := by
  unfold maxColFold
  have mono : ∀ (l : List Int) (m m' : Int), m ≤ m' →
      l.foldl (fun a b => if b > a then b else a) m
        ≤ l.foldl (fun a b => if b > a then b else a) m' := by
    intro l
    induction l with
    | nil => intro m m' h; simpa using h
    | cons x xs ih =>
      intro m m' hmm
      simp only [List.foldl_cons]
      apply ih
      by_cases h1 : x > m <;> by_cases h2 : x > m' <;> simp [h1, h2] <;> try omega
  have start : ∀ (l : List Int) (m : Int), m ≤ l.foldl (fun a b => if b > a then b else a) m := by
    intro l
    induction l with
    | nil => intro m; simp
    | cons x xs ih =>
      intro m
      simp only [List.foldl_cons]
      by_cases h1 : x > m
      · rw [if_pos h1]; exact le_trans h1.le (ih x)
      · rw [if_neg h1]; exact ih m
  induction cs with
  | nil => simp at h
  | cons x xs ih =>
    rcases List.mem_cons.mp h with rfl | hmem
    · simp only [List.foldl_cons]
      by_cases h1 : (c > 0 : Prop)
      · rw [if_pos h1]; exact start xs c
      · rw [if_neg h1]
        exact le_trans (by omega) (start xs 0)
    · simp only [List.foldl_cons]
      refine le_trans (ih hmem) (mono xs 0 _ ?_)
      by_cases h1 : (x > 0 : Prop) <;> simp [h1] <;> try omega

theorem mem_insertSorted {x r : Row} {l : List Row} :
    x ∈ insertSorted r l ↔ x = r ∨ x ∈ l := by
  induction l with
  | nil => simp [insertSorted]
  | cons y ys ih =>
    unfold insertSorted
    by_cases h : rowLt y r
    · rw [if_pos h]
      simp only [List.mem_cons, ih]
      tauto
    · rw [if_neg h]
      simp only [List.mem_cons]

theorem mem_sortRows {x : Row} {l : List Row} : x ∈ sortRows l ↔ x ∈ l := by
  induction l with
  | nil => simp [sortRows]
  | cons y ys ih =>
    unfold sortRows
    rw [mem_insertSorted]
    simp only [List.mem_cons, ih]

theorem setLeaves_mem {m : Nat} {l : List Row} {x : Row}
    (h : x ∈ (setLeaves m l).1) :
    ∃ y ∈ l, x.coeff = y.coeff ∧ x.maxSize = y.maxSize ∧ x.name = y.name ∧
      x.minSize = y.minSize ∧ x.minProduct = y.minProduct ∧
      x.maxProduct = y.maxProduct := by
  induction l with
  | nil => simp [setLeaves] at h
  | cons y ys ih =>
    unfold setLeaves at h
    simp only [List.mem_cons] at h
    rcases h with rfl | h
    · exact ⟨y, by simp, rfl, rfl, rfl, rfl, rfl, rfl⟩
    · rcases ih h with ⟨z, hz, h1⟩
      exact ⟨z, List.mem_cons_of_mem y hz, h1⟩

theorem rowsOfInput_mem {base : Nat} {rs : List RowIn} {x : Row}
    (h : x ∈ rowsOfInput base rs) :
    ∃ ri ∈ rs, x.coeff = ri.coeff ∧ x.minSize = ri.minSize ∧
      x.maxSize = ri.maxSize := by
  induction rs generalizing base with
  | nil => simp [rowsOfInput] at h
  | cons ri rest ih =>
    unfold rowsOfInput at h
    simp only [List.mem_cons] at h
    rcases h with rfl | h
    · exact ⟨ri, by simp, rfl, rfl, rfl⟩
    · rcases ih h with ⟨z, hz, h1⟩
      exact ⟨z, List.mem_cons_of_mem ri hz, h1⟩

/-- Validity of the declared inputs (the `Assert`ed preconditions of
`insertRow` / `insertColumn`). -/
def ValidInput (rs : List RowIn) (cs : List Int) : Prop :=
  (∀ r ∈ rs, 0 < r.coeff ∧ 0 ≤ r.minSize ∧ r.minSize ≤ r.maxSize) ∧
  (∀ c ∈ cs, 0 < c)

instance (rs : List RowIn) (cs : List Int) : Decidable (ValidInput rs cs) := by
  unfold ValidInput; infer_instance

/-- After the precompute prologue, every row of a valid system has positive
coefficient and nonnegative (substituted) maximum size. -/
theorem preparedRows_valid (rs : List RowIn) (cs : List Int)
    (hv : ValidInput rs cs) :
    ∀ x ∈ preparedRows (buildSystem rs cs), 0 < x.coeff ∧ 0 ≤ x.maxSize := by
  intro x hx
  unfold preparedRows at hx
  rcases setLeaves_mem hx with ⟨y, hy, hcf, hms, -⟩
  rw [mem_sortRows] at hy
  unfold precomputedRows at hy
  rcases List.mem_map.mp hy with ⟨z, hz, rfl⟩
  rw [buildSystem_rows] at hz
  rcases rowsOfInput_mem hz with ⟨ri, hri, h1, h2, h3⟩
  have hri' := hv.1 ri hri
  have hsum : 0 ≤ (buildSystem rs cs).columnSum := by
    rw [buildSystem_columnSum]
    have : ∀ c ∈ cs, 0 ≤ c := fun c hc => (hv.2 c hc).le
    exact List.sum_nonneg this
  unfold substRow at hcf hms
  constructor
  · rw [hcf]; simp only [h1]; exact hri'.1
  · rw [hms]
    by_cases hub : z.maxSize = UNBOUNDED
    · simp only [hub, if_pos rfl]
      exact hsum
    · simp only [if_neg hub]
      rw [h2, h3] at *
      omega

/-- When the totals check passes and the complex test fires, `precompute`
stores the rows with solubility tables attached. -/
theorem precompute_rows_complex (s : DiophantineSystem)
    (hok : ¬(((precomputedRows s).map Row.minProduct).sum > s.columnSum ∨
             ((precomputedRows s).map Row.maxProduct).sum < s.columnSum))
    (hcc : complexCond (preparedRows s) s.maxColumnValue) :
    s.precompute.2.rows = buildTables s.maxColumnValue.toNat (preparedRows s) := by
  simp only [DiophantineSystem.precompute]
  rw [if_neg hok, if_pos hcc]
  split <;> rfl

theorem buildSystem_maxColumnValue_nonneg (rs : List RowIn) (cs : List Int) :
    0 ≤ (buildSystem rs cs).maxColumnValue := by
  rw [buildSystem_maxColumnValue]
  exact maxColFold_nonneg cs

/-- C3: for a valid system that passes the totals check and is classified
complex, the solubility table of every row `i` is correct: for every
magnitude `v` in `[0, maxColumnValue]`, `rows[i].soluble[v].min` (resp.
`.max`) is the least (resp. greatest) number of copies of `rows[i].coeff`
that a completion of the suffix `rows[i..n-1]` (counts bounded by each row's
`maxSize`, weighted sum exactly `v`) places at the first row, and both are
`INSOLUBLE` exactly when no completion exists. -/
theorem c3_solubility_tables (rs : List RowIn) (cs : List Int)
    (hv : ValidInput rs cs)
    (hok : ¬(((precomputedRows (buildSystem rs cs)).map Row.minProduct).sum
               > (buildSystem rs cs).columnSum ∨
             ((precomputedRows (buildSystem rs cs)).map Row.maxProduct).sum
               < (buildSystem rs cs).columnSum))
    (hcc : complexCond (preparedRows (buildSystem rs cs))
             (buildSystem rs cs).maxColumnValue) :
    ∀ i, i < (preparedRows (buildSystem rs cs)).length →
    ∀ v : Int, 0 ≤ v → v ≤ (buildSystem rs cs).maxColumnValue →
      EntryCorrect ((preparedRows (buildSystem rs cs)).drop i) v
        (solAt (((buildSystem rs cs).precompute.2.rows.getD i default).soluble) v)
    := by
  intro i hi v hv0 hvle
  have hrows := precompute_rows_complex (buildSystem rs cs) hok hcc
  rw [hrows]
  rw [buildTables_getD _ _ _ hi]
  have hvalid := preparedRows_valid rs cs hv
  have hdropne : (preparedRows (buildSystem rs cs)).drop i ≠ [] := by
    intro h
    rw [List.drop_eq_nil_iff] at h
    omega
  have h1 : ∀ x ∈ (preparedRows (buildSystem rs cs)).drop i, 0 < x.coeff :=
    fun x hx => (hvalid x (List.mem_of_mem_drop hx)).1
  have h2 : ∀ x ∈ (preparedRows (buildSystem rs cs)).drop i, 0 ≤ x.maxSize :=
    fun x hx => (hvalid x (List.mem_of_mem_drop hx)).2
  have hTC := tableOf_correct (buildSystem rs cs).maxColumnValue.toNat _ h1 h2 hdropne
  have hcast : (((buildSystem rs cs).maxColumnValue.toNat : Int))
      = (buildSystem rs cs).maxColumnValue :=
    Int.toNat_of_nonneg (buildSystem_maxColumnValue_nonneg rs cs)
  exact hTC v hv0 (by rw [hcast]; exact hvle)

/-- C3, witness: the one-row system `(2, 1, 10)` with column `4` is valid,
passes the totals check, is classified complex, and its tables are correct
in the sense of `c3_solubility_tables`. -/
theorem c3_witness :
    ValidInput [⟨2, 1, 10⟩] [4] ∧
    (∀ i, i < (preparedRows (buildSystem [⟨2, 1, 10⟩] [4])).length →
     ∀ v : Int, 0 ≤ v → v ≤ (buildSystem [⟨2, 1, 10⟩] [4]).maxColumnValue →
      EntryCorrect ((preparedRows (buildSystem [⟨2, 1, 10⟩] [4])).drop i) v
        (solAt (((buildSystem [⟨2, 1, 10⟩] [4]).precompute.2.rows.getD
          i default).soluble) v)) :=
  ⟨by decide, c3_solubility_tables [⟨2, 1, 10⟩] [4] (by decide) (by decide)
    (by decide)⟩
